import Mathlib

/-!
Verification of the meatcheck diff-parsing and view-projection core
(package `internal/app`: diff.go, view.go, app.go) against its
specification.  Go functions are shallowly embedded as executable Lean
definitions; machine integers are modelled as `Nat` (line cursors, which
are parsed from digit strings and only ever incremented) or `Int`
(selection bounds and range endpoints, which Go code compares against 0).
External collaborators (the syntax-highlight renderer and the markdown
renderer) are passed in as plain function parameters, as the spec's
external-interface section prescribes.
-/

namespace Meatcheck

/-! ### String helpers (Go `strings` package primitives)

Strings are processed via their character lists.  Go indexes bytes, but
every byte the parser inspects is compared against ASCII characters, and
a non-ASCII leading byte falls into the same default branch as a
non-ASCII leading character, so the character-level model agrees with
the byte-level code on all inputs. -/

/-- `pfxChars p s` models `strings.HasPrefix(s, p)` on character lists. -/
def pfxChars : List Char → List Char → Bool
  | [], _ => true
  | _ :: _, [] => false
  | p :: ps, c :: cs => p == c && pfxChars ps cs

/-- Embeds `strings.HasPrefix(s, p)`. -/
def hasPfx (s p : String) : Bool :=
  pfxChars p.toList s.toList

/-- Embeds `strings.ReplaceAll(input, "\r\n", "\n")`: non-overlapping
left-to-right replacement of CRLF by LF. -/
def normEOL : List Char → List Char
  | '\r' :: '\n' :: cs => '\n' :: normEOL cs
  | c :: cs => c :: normEOL cs
  | [] => []

/-- Accumulator-based splitter on newline characters, modelling
`strings.Split(s, "\n")` (the accumulator holds the current field
reversed). -/
def splitAux (acc : List Char) : List Char → List String
  | [] => [String.mk acc.reverse]
  | '\n' :: cs => String.mk acc.reverse :: splitAux [] cs
  | c :: cs => splitAux (c :: acc) cs

/-- The line list the parser iterates over:
`strings.Split(strings.ReplaceAll(input, "\r\n", "\n"), "\n")`. -/
def splitLines (input : String) : List String :=
  splitAux [] (normEOL input.toList)

/-- Go's `unicode.IsSpace`: the Unicode white-space code points. -/
def isGoSpace (c : Char) : Bool :=
  c == ' ' || c == '\t' || c == '\n' || c.toNat == 11 || c.toNat == 12 || c == '\r' ||
  c.toNat == 0x85 || c.toNat == 0xA0 || c.toNat == 0x1680 ||
  (0x2000 ≤ c.toNat && c.toNat ≤ 0x200A) ||
  c.toNat == 0x2028 || c.toNat == 0x2029 || c.toNat == 0x202F ||
  c.toNat == 0x205F || c.toNat == 0x3000

/-- Embeds `strings.TrimSpace`. -/
def goTrimSpace (s : String) : String :=
  String.mk (((s.toList.dropWhile isGoSpace).reverse.dropWhile isGoSpace).reverse)

/-- First character of a string (`raw[0]` in the Go code, which is only
used on non-empty strings). -/
def strFront (s : String) : Char :=
  s.toList.headD (Char.ofNat 0)

/-- Drop the first `n` characters (`raw[n:]` in the Go code, only applied
after an ASCII character was matched at the front). -/
def strDrop (s : String) (n : Nat) : String :=
  String.mk (s.toList.drop n)

/-! ### Hunk header parsing

The Go code matches a hunk header line against the anchored pattern
`@@ -(digits)(?:,(digits))? [+](digits)(?:,(digits))? @@`.  The two
optional groups are followed by a space in the pattern, so the regex
engine's backtracking coincides with maximal-munch digit reading (a
group that consumed `,digits` can only have failed where the group-empty
alternative also fails, since `,` is not a space).  `mustAtoi` on a
digit-only string is its decimal value, and `parseOptionalCount` turns a
missing group into 1. -/

/-- Maximal-munch decimal digit reader continuing from `acc`. -/
def readDigits : Nat → List Char → Nat × List Char
  | acc, [] => (acc, [])
  | acc, c :: cs =>
    if c.isDigit then readDigits (10 * acc + (c.toNat - 48)) cs else (acc, c :: cs)

/-- Reads one or more decimal digits (`(\d+)` in the header pattern). -/
def parseNum : List Char → Option (Nat × List Char)
  | [] => none
  | c :: cs => if c.isDigit then some (readDigits (c.toNat - 48) cs) else none

/-- Reads the optional `,count` group of the header pattern. -/
def parseOptCount : List Char → Option Nat × List Char
  | ',' :: c :: cs =>
    if c.isDigit then
      let r := readDigits (c.toNat - 48) cs
      (some r.1, r.2)
    else (none, ',' :: c :: cs)
  | cs => (none, cs)

/-- Embeds the match of `hunkHeaderRE` plus the `mustAtoi` /
`parseOptionalCount` extraction in `parseUnifiedDiff`: returns
`(oldStart, oldCount, newStart, newCount)` with absent counts already
defaulted to 1, or `none` when the line does not match the pattern. -/
def parseHunkHeader (s : String) : Option (Nat × Nat × Nat × Nat) :=
  match s.toList with
  | '@' :: '@' :: ' ' :: '-' :: rest =>
    match parseNum rest with
    | none => none
    | some (o, r1) =>
      let oc := parseOptCount r1
      match oc.2 with
      | ' ' :: '+' :: r3 =>
        match parseNum r3 with
        | none => none
        | some (n, r4) =>
          let nc := parseOptCount r4
          match nc.2 with
          | ' ' :: '@' :: '@' :: _ => some (o, oc.1.getD 1, n, nc.1.getD 1)
          | _ => none
      | _ => none
  | _ => none

/-! ### Diff data model (diff.go) -/

inductive DiffLineKind where
  | context
  | add
  | del
  deriving DecidableEq

structure DiffLine where
  Kind : DiffLineKind
  OldLine : Nat
  NewLine : Nat
  Text : String
  deriving DecidableEq

structure DiffHunk where
  OldStart : Nat
  OldCount : Nat
  NewStart : Nat
  NewCount : Nat
  Lines : List DiffLine
  deriving DecidableEq

structure DiffFile where
  OldPath : String := ""
  NewPath : String := ""
  Path : String := ""
  Hunks : List DiffHunk := []
  deriving DecidableEq

/-- Embeds `normalizeDiffPath` (diff.go).  `filepath.ToSlash` is the
identity on slash-separated paths and is omitted. -/
def normalizeDiffPath (path : String) : String :=
  if path == "/dev/null" then ""
  else
    let p1 := if hasPfx path "a/" || hasPfx path "b/" then strDrop path 2 else path
    if hasPfx p1 "./" then strDrop p1 2 else p1

/-- Embeds `pickDiffPath` (diff.go). -/
def pickDiffPath (oldPath newPath : String) : String :=
  if newPath ≠ "" then newPath else oldPath

/-! ### The parser state machine (diff.go, `parseUnifiedDiff`)

In the Go code `curHunk` is a pointer to the last hunk of `curFile`
whenever it is non-nil (it is set exactly when a hunk header is appended
and cleared by `flushFile`); we model the pointer by the boolean
`hunkOpen` plus "append to the last hunk of the current file". -/

structure ParseState where
  files : List DiffFile
  curFile : Option DiffFile
  hunkOpen : Bool
  oldLine : Nat
  newLine : Nat
  deriving DecidableEq

/-- The initial parser state (`var files; var curFile, curHunk = nil;
oldLine, newLine = 0`). -/
def initState : ParseState :=
  { files := [], curFile := none, hunkOpen := false, oldLine := 0, newLine := 0 }

/-- Embeds the `flushFile` closure of `parseUnifiedDiff`. -/
def flushFile (st : ParseState) : ParseState :=
  match st.curFile with
  | none => st
  | some f => { st with files := st.files ++ [f], curFile := none, hunkOpen := false }

/-- Appends a line to the `Lines` of the last hunk of the list (the
in-place `curHunk.Lines = append(...)` of the Go code). -/
def updateLast : List DiffHunk → DiffLine → List DiffHunk
  | [], _ => []
  | [h], l => [{ h with Lines := h.Lines ++ [l] }]
  | h :: h2 :: hs, l => h :: updateLast (h2 :: hs) l

/-- Appends a diff line to the open hunk of the current file. -/
def addLine (st : ParseState) (l : DiffLine) : ParseState :=
  match st.curFile with
  | none => st
  | some f => { st with curFile := some { f with Hunks := updateLast f.Hunks l } }

/-- One iteration of the `for _, raw := range lines` loop of
`parseUnifiedDiff`, with the branches in source order. -/
def processLine (st : ParseState) (raw : String) : Except String ParseState :=
  if hasPfx raw "diff --git " then
    .ok { flushFile st with curFile := some {} }
  else if hasPfx raw "--- " then
    .ok { st with curFile := some { st.curFile.getD {} with
          OldPath := normalizeDiffPath (goTrimSpace (strDrop raw 4)) } }
  else if hasPfx raw "+++ " then
    .ok { st with curFile := some { st.curFile.getD {} with
          NewPath := normalizeDiffPath (goTrimSpace (strDrop raw 4)),
          Path := pickDiffPath (st.curFile.getD {}).OldPath
            (normalizeDiffPath (goTrimSpace (strDrop raw 4))) } }
  else if hasPfx raw "@@ " then
    match parseHunkHeader raw with
    | none => .error ("invalid hunk header: " ++ raw)
    | some (o, oc, n, nc) =>
      .ok { st with
            curFile := some { st.curFile.getD {} with
              Hunks := (st.curFile.getD {}).Hunks ++ [⟨o, oc, n, nc, []⟩] },
            hunkOpen := true, oldLine := o, newLine := n }
  else if !st.hunkOpen then
    .ok st
  else if hasPfx raw "\\ No newline at end of file" then
    .ok st
  else if raw == "" then
    .ok { addLine st ⟨.context, st.oldLine, st.newLine, ""⟩ with
          oldLine := st.oldLine + 1, newLine := st.newLine + 1 }
  else if strFront raw == ' ' then
    .ok { addLine st ⟨.context, st.oldLine, st.newLine, strDrop raw 1⟩ with
          oldLine := st.oldLine + 1, newLine := st.newLine + 1 }
  else if strFront raw == '+' then
    .ok { addLine st ⟨.add, 0, st.newLine, strDrop raw 1⟩ with newLine := st.newLine + 1 }
  else if strFront raw == '-' then
    .ok { addLine st ⟨.del, st.oldLine, 0, strDrop raw 1⟩ with oldLine := st.oldLine + 1 }
  else
    .ok { addLine st ⟨.context, st.oldLine, st.newLine, raw⟩ with
          oldLine := st.oldLine + 1, newLine := st.newLine + 1 }

/-- Runs the parser loop over the remaining input lines. -/
def runLines (st : ParseState) : List String → Except String ParseState
  | [] => .ok st
  | l :: ls =>
    match processLine st l with
    | .error e => .error e
    | .ok st' => runLines st' ls

/-- Embeds `parseUnifiedDiff` (diff.go): split the CRLF-normalized input
on newlines, scan the lines, flush the last open file. -/
def parseUnifiedDiff (input : String) : Except String (List DiffFile) :=
  match runLines initState (splitLines input) with
  | .error e => .error e
  | .ok st => .ok (flushFile st).files

/-! ### Old-side / new-side line counting -/

/-- A line that exists on the old side (kind context or delete): these
advance the old-line cursor. -/
def isOldSide (l : DiffLine) : Bool :=
  match l.Kind with
  | .add => false
  | _ => true

/-- A line that exists on the new side (kind context or add): these
advance the new-line cursor. -/
def isNewSide (l : DiffLine) : Bool :=
  match l.Kind with
  | .del => false
  | _ => true

/-- Number of old-side (context or delete) lines in a list. -/
def countOld (ls : List DiffLine) : Nat :=
  ls.countP isOldSide

/-- Number of new-side (context or add) lines in a list. -/
def countNew (ls : List DiffLine) : Nat :=
  ls.countP isNewSide

/-! ### Range model (view.go, `normalizeRanges`) and comments (app.go) -/

structure LineRange where
  Start : Int
  End : Int
  deriving DecidableEq

structure Comment where
  Path : String
  StartLine : Int
  EndLine : Int
  Text : String
  deriving DecidableEq

/-- The filtering/swapping pass of `normalizeRanges`: drop a range with a
non-positive bound, swap an inverted range (the `cleaned` loop of the Go
code). -/
def cleanRanges : List LineRange → List LineRange
  | [] => []
  | r :: rs =>
    if r.Start ≤ 0 || r.End ≤ 0 then cleanRanges rs
    else if r.End < r.Start then ⟨r.End, r.Start⟩ :: cleanRanges rs
    else r :: cleanRanges rs

/-- The `sort.Slice` comparator of `normalizeRanges` as a total order:
lexicographic on `(Start, End)`.  Two `LineRange`s that are equivalent
under this order are equal, so every comparison sort (in particular the
unstable `sort.Slice`) produces the same output; we embed the sort as a
structurally recursive insertion sort. -/
def rangeLE (a b : LineRange) : Bool :=
  decide (a.Start < b.Start) || (a.Start == b.Start && decide (a.End ≤ b.End))

/-- Insert into a sorted list (helper of `sortRanges`). -/
def insertRange (r : LineRange) : List LineRange → List LineRange
  | [] => [r]
  | x :: xs => if rangeLE r x then r :: x :: xs else x :: insertRange r xs

/-- The `sort.Slice(cleaned, ...)` call of `normalizeRanges`. -/
def sortRanges : List LineRange → List LineRange
  | [] => []
  | r :: rs => insertRange r (sortRanges rs)

/-- The merging loop of `normalizeRanges`: `last` is the last range of the
`merged` slice, extended in place while the next range starts at most one
past its end. -/
def mergeRanges (last : LineRange) : List LineRange → List LineRange
  | [] => [last]
  | r :: rs =>
    if r.Start ≤ last.End + 1 then
      mergeRanges ⟨last.Start, if last.End < r.End then r.End else last.End⟩ rs
    else
      last :: mergeRanges r rs

/-- Embeds `normalizeRanges` (view.go). -/
def normalizeRanges (ranges : List LineRange) : List LineRange :=
  match sortRanges (cleanRanges ranges) with
  | [] => []
  | c :: cs => mergeRanges c cs

/-! ### View model types (model declarations in app.go) -/

structure ViewComment where
  Comment : Comment
  Rendered : String
  deriving DecidableEq

structure ViewLine where
  Number : Int
  Text : String
  HTML : String
  Selected : Bool
  Commented : Bool
  Comments : List ViewComment
  deriving DecidableEq

structure ViewFile where
  Path : String := ""
  Lines : List ViewLine := []
  MarkdownFile : Bool := false
  MarkdownRendered : Bool := false
  MarkdownHTML : String := ""
  deriving DecidableEq

structure ViewDiffLine where
  Kind : DiffLineKind
  OldLine : Nat
  NewLine : Nat
  Text : String
  HTML : String
  Selected : Bool
  Commented : Bool
  Comments : List ViewComment
  deriving DecidableEq

structure ViewDiffHunk where
  Header : String
  Lines : List ViewDiffLine
  deriving DecidableEq

structure ViewDiffFile where
  Path : String := ""
  Hunks : List ViewDiffHunk := []
  deriving DecidableEq

structure File where
  Path : String
  PathSlash : String
  Lines : List String
  deriving DecidableEq

inductive ViewMode where
  | file
  | diff
  deriving DecidableEq

/-- The external collaborators of the core (spec section 6): the
syntax-highlight renderer `codeRenderer.RenderLines` and the markdown
renderer `renderMarkdown`, which wrap external libraries. -/
structure Externals where
  renderLines : String → List String → List String
  renderMarkdown : String → String

/-! ### View projection (view.go) -/

/-- Embeds `projectLineComments` (view.go): one pass over the comment
list, collecting the `commented` flag by range containment and the
rendered comments anchored at this exact line.  The Go for-loop appends
in comment order; the head-first recursion below produces the same
accumulated pair. -/
def projectLineComments (renderMD : String → String) (path : String) (lineNum : Int) :
    List Comment → Bool × List ViewComment
  | [] => (false, [])
  | c :: cs =>
    let rest := projectLineComments renderMD path lineNum cs
    if c.Path ≠ path then rest
    else
      ((decide (c.StartLine ≤ lineNum) && decide (lineNum ≤ c.EndLine)) || rest.1,
       (if lineNum = c.StartLine then [⟨c, renderMD c.Text⟩] else []) ++ rest.2)

/-- Embeds `findFile` (app.go). -/
def findFile : List File → String → Option File
  | [], _ => none
  | f :: fs, path => if f.Path = path then some f else findFile fs path

/-- Embeds `findDiffFile` (view.go). -/
def findDiffFile : List DiffFile → String → Option DiffFile
  | [], _ => none
  | f :: fs, path => if f.Path = path then some f else findDiffFile fs path

/-- Embeds `hasDiffFile` (view.go). -/
def hasDiffFile (files : List DiffFile) (path : String) : Bool :=
  (findDiffFile files path).isSome

/-- Embeds `hasFile` (app.go). -/
def hasFile (files : List File) (path : String) : Bool :=
  (findFile files path).isSome

/-- Embeds `diffLineExists` (view.go): the clicked number is the
new-side number of some non-deleted line of the selected diff file. -/
def diffLineExists (files : List DiffFile) (path : String) (line : Int) : Bool :=
  match findDiffFile files path with
  | none => false
  | some f =>
    f.Hunks.any fun h => h.Lines.any fun dl =>
      (dl.NewLine : Int) == line && dl.Kind != DiffLineKind.del

/-- Embeds `buildSingleViewLine` (view.go) at index `idx` (the caller
guarantees `idx` is in bounds; out-of-range access is modelled by the
Go zero values). -/
def buildSingleViewLine (renderMD : String → String) (file : File) (comments : List Comment)
    (s e : Int) (rendered : List String) (idx : Nat) : ViewLine :=
  let lineNum : Int := (idx : Int) + 1
  let raw := file.Lines.getD idx ""
  let selected := decide (0 < s) && decide (0 < e) && decide (s ≤ lineNum) && decide (lineNum ≤ e)
  let pc := projectLineComments renderMD file.Path lineNum comments
  { Number := lineNum, Text := raw, HTML := rendered.getD idx "",
    Selected := selected, Commented := pc.1, Comments := pc.2 }

/-- Embeds `buildViewLines` (view.go). -/
def buildViewLines (renderMD : String → String) (file : File) (comments : List Comment)
    (s e : Int) (rendered : List String) : List ViewLine :=
  (List.range file.Lines.length).map (buildSingleViewLine renderMD file comments s e rendered)

/-- Embeds `buildViewLinesWithRanges` (view.go): restrict to the
normalized display ranges, clamping each range to `[1, lineCount]`. -/
def buildViewLinesWithRanges (renderMD : String → String) (file : File) (comments : List Comment)
    (s e : Int) (rendered : List String) (ranges : List LineRange) : List ViewLine :=
  if ranges.isEmpty then buildViewLines renderMD file comments s e rendered
  else
    (normalizeRanges ranges).flatMap fun r =>
      let st := if r.Start < 1 then 1 else r.Start
      let en := if (file.Lines.length : Int) < r.End then (file.Lines.length : Int) else r.End
      ((List.range' (st - 1).toNat (en - (st - 1)).toNat).map
        (buildSingleViewLine renderMD file comments s e rendered))

/-- One projected diff line of `buildViewDiff` (view.go): the body of the
`for i, dl := range h.Lines` loop. -/
def mkViewDiffLine (renderMD : String → String) (path : String) (comments : List Comment)
    (s e : Int) (rendered : List String) (i : Nat) (dl : DiffLine) : ViewDiffLine :=
  let selectable := decide (0 < dl.NewLine) && dl.Kind != DiffLineKind.del
  let selected := selectable && decide (0 < s) && decide (0 < e) &&
    decide (s ≤ (dl.NewLine : Int)) && decide ((dl.NewLine : Int) ≤ e)
  let pc :=
    if 0 < dl.NewLine then projectLineComments renderMD path (dl.NewLine : Int) comments
    else (false, [])
  { Kind := dl.Kind, OldLine := dl.OldLine, NewLine := dl.NewLine, Text := dl.Text,
    HTML := rendered.getD i "",
    -- the trailing `if !selectable { line.Selected = false }` of the source
    Selected := if selectable then selected else false,
    Commented := pc.1, Comments := pc.2 }

/-- The projected diff lines of one hunk, carrying the running index `i`. -/
def viewDiffLines (renderMD : String → String) (path : String) (comments : List Comment)
    (s e : Int) (rendered : List String) (i : Nat) : List DiffLine → List ViewDiffLine
  | [] => []
  | dl :: rest =>
    mkViewDiffLine renderMD path comments s e rendered i dl ::
      viewDiffLines renderMD path comments s e rendered (i + 1) rest

/-- Embeds `buildViewDiff` (view.go). -/
def buildViewDiff (ext : Externals) (file : DiffFile) (comments : List Comment)
    (s e : Int) (render : Bool) : ViewDiffFile :=
  { Path := file.Path,
    Hunks := file.Hunks.map fun h =>
      let rendered := if render then ext.renderLines file.Path (h.Lines.map DiffLine.Text) else []
      { Header := "@@ -" ++ toString h.OldStart ++ "," ++ toString h.OldCount ++
          " +" ++ toString h.NewStart ++ "," ++ toString h.NewCount ++ " @@",
        Lines := viewDiffLines ext.renderMarkdown file.Path comments s e rendered 0 h.Lines } }

/-- Embeds `formatSelectedLabel` (view.go). -/
def formatSelectedLabel (path : String) (ranges : List LineRange) : String :=
  if ranges.isEmpty then path
  else
    let parts := (normalizeRanges ranges).map fun r => toString r.Start ++ "-" ++ toString r.End
    path ++ " (lines " ++ String.intercalate ", " parts ++ ")"

/-- Embeds `isMarkdownPath` (app.go): `filepath.Ext` lowercased is
`.md` or `.markdown`.  The extension is the suffix from the final dot of
the final path element. -/
def pathExt (s : String) : String :=
  let rec lastExt : List Char → String → String
    | [], acc => acc
    | '/' :: cs, _ => lastExt cs ""
    | '.' :: cs, _ => lastExt cs (String.mk ('.' :: cs))
    | _ :: cs, acc => lastExt cs acc
  lastExt s.toList ""

/-- Embeds `isMarkdownPath` (app.go). -/
def isMarkdownPath (path : String) : Bool :=
  let ext := String.mk ((pathExt path).toList.map Char.toLower)
  ext == ".md" || ext == ".markdown"

/-! ### Session state and event handlers (app.go)

`ReviewModel` keeps the fields of the Go struct that the core reads or
writes; the Go maps `Ranges` and `MarkdownRenderByPath` are modelled as
lookup functions (with Go's zero-value / two-valued-read semantics). -/

structure ReviewModel where
  Files : List File
  DiffFiles : List DiffFile
  SelectedPath : String
  SelectedLabel : String
  Mode : ViewMode
  RenderFile : Bool
  RenderComments : Bool
  SelectionStart : Int
  SelectionEnd : Int
  CommentDraft : String
  Comments : List Comment
  Ranges : String → List LineRange
  MarkdownRenderByPath : String → Option Bool
  ViewFile : ViewFile
  ViewDiff : ViewDiffFile
  Error : String

/-- Embeds `updateFileView` (view.go). -/
def updateFileView (ext : Externals) (m : ReviewModel) : ReviewModel :=
  match findFile m.Files m.SelectedPath with
  | none =>
    { m with ViewFile := { Path := m.SelectedPath },
             SelectedLabel := formatSelectedLabel m.SelectedPath (m.Ranges m.SelectedPath) }
  | some f =>
    let mdFile := isMarkdownPath f.Path
    let mdLook := m.MarkdownRenderByPath f.Path
    let mdRendered := if mdFile then mdLook.getD true else false
    let mdMap :=
      if mdFile && mdLook.isNone then
        fun p => if p = f.Path then some true else m.MarkdownRenderByPath p
      else m.MarkdownRenderByPath
    if mdFile && mdRendered then
      { m with MarkdownRenderByPath := mdMap,
               ViewFile := { Path := m.SelectedPath, MarkdownFile := mdFile,
                             MarkdownRendered := mdRendered,
                             MarkdownHTML := ext.renderMarkdown (String.intercalate "\n" f.Lines) },
               SelectedLabel := formatSelectedLabel m.SelectedPath (m.Ranges m.SelectedPath) }
    else
      let rendered := if m.RenderFile then ext.renderLines f.Path f.Lines else []
      { m with MarkdownRenderByPath := mdMap,
               ViewFile := { Path := m.SelectedPath, MarkdownFile := mdFile,
                             MarkdownRendered := mdRendered,
                             Lines := buildViewLinesWithRanges ext.renderMarkdown f m.Comments
                               m.SelectionStart m.SelectionEnd rendered (m.Ranges f.Path) },
               SelectedLabel := formatSelectedLabel m.SelectedPath (m.Ranges m.SelectedPath) }

/-- Embeds `updateDiffView` (view.go). -/
def updateDiffView (ext : Externals) (m : ReviewModel) : ReviewModel :=
  match findDiffFile m.DiffFiles m.SelectedPath with
  | none => { m with ViewDiff := { Path := m.SelectedPath }, SelectedLabel := m.SelectedPath }
  | some f =>
    { m with
      ViewDiff := buildViewDiff ext f m.Comments m.SelectionStart m.SelectionEnd m.RenderFile,
      SelectedLabel := m.SelectedPath }

/-- Embeds `updateView` (view.go). -/
def updateView (ext : Externals) (m : ReviewModel) : ReviewModel :=
  match m.Mode with
  | .diff => updateDiffView ext m
  | .file => updateFileView ext m

/-- Embeds the `select-line` event handler (app.go): reject non-positive
numbers, in diff mode reject numbers that are not a selectable diff
line, extend from the anchor on shift-click with a prior selection, else
reset to a single line. -/
def selectLine (ext : Externals) (m : ReviewModel) (line : Int) (shift : Bool) : ReviewModel :=
  if line ≤ 0 then m
  else if m.Mode == ViewMode.diff && !diffLineExists m.DiffFiles m.SelectedPath line then m
  else
    let m1 :=
      if shift && decide (0 < m.SelectionStart) then
        let s := m.SelectionStart
        let e := line
        let p := if e < s then (e, s) else (s, e)
        { m with SelectionStart := p.1, SelectionEnd := p.2 }
      else
        { m with SelectionStart := line, SelectionEnd := line }
    updateView ext { m1 with Error := "" }

/-- Embeds the `add-comment` event handler (app.go): validate trimmed
text and a non-empty selection, then append the comment and clear the
selection. -/
def addComment (ext : Externals) (m : ReviewModel) (comment : String) : ReviewModel :=
  let text := goTrimSpace comment
  if text = "" then { m with Error := "comment text is required" }
  else if m.SelectionStart = 0 || m.SelectionEnd = 0 then
    { m with Error := "select a line or range first" }
  else
    updateView ext
      { m with
        Comments := m.Comments ++ [⟨m.SelectedPath, m.SelectionStart, m.SelectionEnd, text⟩],
        CommentDraft := "", Error := "",
        SelectionStart := 0, SelectionEnd := 0 }

/-! ### Helper lemmas for `normalizeRanges` -/

/-- On a list of positive well-ordered ranges the cleaning pass is the
identity. -/
theorem cleanRanges_id (l : List LineRange) (h : ∀ r ∈ l, 0 < r.Start ∧ r.Start ≤ r.End) :
    cleanRanges l = l := by
  induction l with
  | nil => rfl
  | cons a t ih =>
    have ha := h a (List.mem_cons_self a t)
    have h1 : ¬(a.Start ≤ 0) := not_le.2 ha.1
    have h2 : ¬(a.End ≤ 0) := not_le.2 (lt_of_lt_of_le ha.1 ha.2)
    have h3 : ¬(a.End < a.Start) := not_lt.2 ha.2
    have ht : cleanRanges t = t := ih fun r hr => h r (List.mem_cons_of_mem a hr)
    simp [cleanRanges, h1, h2, h3, ht]

/-- A list whose consecutive ranges are separated by a true gap is
already sorted, so the sorting pass is the identity. -/
theorem sortRanges_id (l : List LineRange) (hb : ∀ r ∈ l, r.Start ≤ r.End)
    (hc : l.Chain' fun a b => a.End + 1 < b.Start) : sortRanges l = l := by
  induction l with
  | nil => rfl
  | cons a t ih =>
    have ht : sortRanges t = t := ih (fun r hr => hb r (List.mem_cons_of_mem a hr)) hc.tail
    simp only [sortRanges, ht]
    cases t with
    | nil => rfl
    | cons b t2 =>
      have hab : a.End + 1 < b.Start := (List.chain'_cons.1 hc).1
      have h1 : a.Start < b.Start := lt_of_le_of_lt (hb a (List.mem_cons_self a _)) (by omega)
      simp [insertRange, rangeLE, h1]

/-- With true gaps between consecutive ranges the merging pass keeps the
list intact. -/
theorem mergeRanges_id (t : List LineRange) : ∀ a : LineRange,
    List.Chain' (fun x y => x.End + 1 < y.Start) (a :: t) → mergeRanges a t = a :: t := by
  induction t with
  | nil => intro a _; rfl
  | cons b t2 ih =>
    intro a hc
    have hab : a.End + 1 < b.Start := (List.chain'_cons.1 hc).1
    have h1 : ¬(b.Start ≤ a.End + 1) := by omega
    simp [mergeRanges, h1, ih b (List.chain'_cons.1 hc).2]

end Meatcheck

namespace Meatcheck

/-! ### Claim theorems -/

/-- The input of end-to-end scenario A (spec section 8): a hunk header
followed by the five body lines. -/
def scenarioAInput : String :=
  "@@ -1,3 +1,4 @@\n line1\n-line2\n+line2-new\n line3\n+line4"

/-- Claim C2: parsing the scenario-A diff text yields exactly one
`DiffFile` with exactly one hunk of exactly 5 lines; the delete line has
`oldLine = 2, newLine = 0`, the add line after it has
`oldLine = 0, newLine = 2`, and the final context and add lines carry
`(oldLine 3, newLine 3)` and `(oldLine 0, newLine 4)`. -/
theorem c2_scenarioA_parse :
    parseUnifiedDiff scenarioAInput =
      .ok [{ OldPath := "", NewPath := "", Path := "",
             Hunks := [⟨1, 3, 1, 4,
               [⟨.context, 1, 1, "line1"⟩, ⟨.del, 2, 0, "line2"⟩,
                ⟨.add, 0, 2, "line2-new"⟩, ⟨.context, 3, 3, "line3"⟩,
                ⟨.add, 0, 4, "line4"⟩]⟩] }] := by
  rfl

/-- Claim C4: while a hunk is open, a zero-length input line is emitted
as a context `DiffLine` with empty text carrying the current cursor
values, both cursors advance by one, and the parser step is literally
the same as for a line consisting of a single space. -/
theorem c4_empty_line (st : ParseState) (h : st.hunkOpen = true) :
    processLine st "" =
      .ok { addLine st ⟨.context, st.oldLine, st.newLine, ""⟩ with
            oldLine := st.oldLine + 1, newLine := st.newLine + 1 } ∧
    processLine st "" = processLine st " " := by
  have e1 : hasPfx "" "diff --git " = false := by decide
  have e2 : hasPfx "" "--- " = false := by decide
  have e3 : hasPfx "" "+++ " = false := by decide
  have e4 : hasPfx "" "@@ " = false := by decide
  have e5 : hasPfx "" "\\ No newline at end of file" = false := by decide
  have s1 : hasPfx " " "diff --git " = false := by decide
  have s2 : hasPfx " " "--- " = false := by decide
  have s3 : hasPfx " " "+++ " = false := by decide
  have s4 : hasPfx " " "@@ " = false := by decide
  have s5 : hasPfx " " "\\ No newline at end of file" = false := by decide
  constructor
  · simp [processLine, e1, e2, e3, e4, e5, h]
  · simp [processLine, e1, e2, e3, e4, e5, s1, s2, s3, s4, s5, h, strFront, strDrop]

/-- A concrete parser state with an open hunk, for the C4 witness. -/
def c4State : ParseState :=
  { files := [], curFile := some { Path := "f", Hunks := [⟨1, 2, 1, 2, []⟩] },
    hunkOpen := true, oldLine := 1, newLine := 1 }

/-- Witness for C4 at a concrete open-hunk state. -/
theorem c4_empty_line_witness :
    processLine c4State "" =
      .ok { addLine c4State ⟨.context, c4State.oldLine, c4State.newLine, ""⟩ with
            oldLine := c4State.oldLine + 1, newLine := c4State.newLine + 1 } ∧
    processLine c4State "" = processLine c4State " " :=
  c4_empty_line c4State rfl

/-- Claim C5: `normalizeRanges` on `[{5,10},{9,15},{20,22}]` yields
`[{5,15},{20,22}]`, and it is the identity on a list that is already
sorted with gaps of at least 2 between consecutive ranges and has
positive `start ≤ end` bounds (idempotence on normalized lists). -/
theorem c5_normalizeRanges :
    normalizeRanges [⟨5, 10⟩, ⟨9, 15⟩, ⟨20, 22⟩] = [⟨5, 15⟩, ⟨20, 22⟩] ∧
    ∀ l : List LineRange, (∀ r ∈ l, 0 < r.Start ∧ r.Start ≤ r.End) →
      l.Chain' (fun a b => a.End + 1 < b.Start) → normalizeRanges l = l := by
  constructor
  · decide
  · intro l h hc
    have h1 := cleanRanges_id l h
    have h2 := sortRanges_id l (fun r hr => (h r hr).2) hc
    unfold normalizeRanges
    rw [h1, h2]
    cases l with
    | nil => rfl
    | cons a t => exact mergeRanges_id t a hc

/-- Witness for C5: idempotence applied to a concrete normalized list. -/
theorem c5_normalizeRanges_witness :
    normalizeRanges [⟨1, 2⟩, ⟨5, 6⟩] = [⟨1, 2⟩, ⟨5, 6⟩] :=
  c5_normalizeRanges.2 [⟨1, 2⟩, ⟨5, 6⟩] (by decide)
    (List.chain'_cons.2 ⟨by decide, List.chain'_singleton _⟩)

/-- Claim C7: a projected line with number `n` is `Commented` exactly
when some comment on the same path contains `n` in
`[startLine, endLine]`, and the rendered comment bodies attached to the
line are exactly the comments whose `startLine` equals `n` (in order). -/
theorem c7_projectLineComments (rmd : String → String) (path : String) (n : Int)
    (cs : List Comment) :
    ((projectLineComments rmd path n cs).1 = true ↔
      ∃ c ∈ cs, c.Path = path ∧ c.StartLine ≤ n ∧ n ≤ c.EndLine) ∧
    (projectLineComments rmd path n cs).2 =
      (cs.filter fun c => c.Path == path && c.StartLine == n).map fun c => ⟨c, rmd c.Text⟩ := by
  induction cs with
  | nil => simp [projectLineComments]
  | cons c cs ih =>
    by_cases hp : c.Path = path
    · constructor
      · simp only [projectLineComments, hp, ne_eq, not_true_eq_false, if_false]
        constructor
        · intro hb
          rcases Bool.or_eq_true_iff.1 hb with hb | hb
          · exact ⟨c, List.mem_cons_self c cs, hp, by
              simpa using (Bool.and_eq_true_iff.1 hb)⟩
          · rcases (ih.1.1 hb) with ⟨d, hd, hdp, hds⟩
            exact ⟨d, List.mem_cons_of_mem c hd, hdp, hds⟩
        · rintro ⟨d, hd, hdp, hd1, hd2⟩
          rcases List.mem_cons.1 hd with rfl | hd
          · exact Bool.or_eq_true_iff.2 (Or.inl (by simp [hd1, hd2]))
          · exact Bool.or_eq_true_iff.2 (Or.inr (ih.1.2 ⟨d, hd, hdp, hd1, hd2⟩))
      · simp only [projectLineComments, hp, ne_eq, not_true_eq_false, if_false]
        rw [ih.2]
        by_cases hn : n = c.StartLine
        · have hcond : (c.Path == path && c.StartLine == n) = true := by simp [hp, hn.symm]
          simp [List.filter_cons, hcond, hn, hp]
        · have hx : ¬c.StartLine = n := fun hh => hn hh.symm
          have hcond : (c.Path == path && c.StartLine == n) = false := by simp [hp, hx]
          simp [List.filter_cons, hcond, hn, hp, hx]
    · constructor
      · simp only [projectLineComments, ne_eq, hp, not_false_eq_true, if_true]
        rw [ih.1]
        constructor
        · rintro ⟨d, hd, hdp, hds⟩
          exact ⟨d, List.mem_cons_of_mem c hd, hdp, hds⟩
        · rintro ⟨d, hd, hdp, hd1, hd2⟩
          rcases List.mem_cons.1 hd with rfl | hd
          · exact absurd hdp hp
          · exact ⟨d, hd, hdp, hd1, hd2⟩
      · simp only [projectLineComments, ne_eq, hp, not_false_eq_true, if_true]
        rw [ih.2]
        simp [List.filter_cons, hp]

/-- Witness for C7: a comment `{start 5, end 7}` marks line 6 commented
but attaches its body only at line 5, not at line 6. -/
theorem c7_projectLineComments_witness :
    (projectLineComments (fun s => s) "f.go" 6 [⟨"f.go", 5, 7, "note"⟩]).1 = true ∧
    (projectLineComments (fun s => s) "f.go" 6 [⟨"f.go", 5, 7, "note"⟩]).2 = [] ∧
    (projectLineComments (fun s => s) "f.go" 5 [⟨"f.go", 5, 7, "note"⟩]).2 =
      [⟨⟨"f.go", 5, 7, "note"⟩, "note"⟩] := by
  refine ⟨?_, ?_, ?_⟩
  · exact (c7_projectLineComments (fun s => s) "f.go" 6 [⟨"f.go", 5, 7, "note"⟩]).1.mpr
      ⟨⟨"f.go", 5, 7, "note"⟩, by simp, rfl, by decide, by decide⟩
  · exact ((c7_projectLineComments (fun s => s) "f.go" 6 [⟨"f.go", 5, 7, "note"⟩]).2).trans
      (by decide)
  · exact ((c7_projectLineComments (fun s => s) "f.go" 5 [⟨"f.go", 5, 7, "note"⟩]).2).trans
      (by decide)

/-! ### Diff view projection: C6 -/

/-- Positional description of the projected lines of one hunk. -/
theorem viewDiffLines_getElem (rmd : String → String) (path : String) (cs : List Comment)
    (s e : Int) (rend : List String) :
    ∀ (ls : List DiffLine) (k i : Nat),
      (viewDiffLines rmd path cs s e rend k ls)[i]? =
        ls[i]?.map (mkViewDiffLine rmd path cs s e rend (k + i))
  | [], _, _ => by simp [viewDiffLines]
  | dl :: rest, k, 0 => by simp [viewDiffLines]
  | dl :: rest, k, i + 1 => by
    have ih := viewDiffLines_getElem rmd path cs s e rend rest (k + 1) i
    simp only [viewDiffLines, List.getElem?_cons_succ, ih, Nat.add_assoc, Nat.add_comm 1 i]

/-- A projected line of delete kind is never selected. -/
theorem viewDiffLines_del_not_selected (rmd : String → String) (path : String)
    (cs : List Comment) (s e : Int) (rend : List String) :
    ∀ (ls : List DiffLine) (k : Nat), ∀ vl ∈ viewDiffLines rmd path cs s e rend k ls,
      vl.Kind = DiffLineKind.del → vl.Selected = false
  | [], _, vl, hvl, _ => by simp [viewDiffLines] at hvl
  | dl :: rest, k, vl, hvl, hdel => by
    rcases List.mem_cons.1 hvl with rfl | hvl
    · have hk : dl.Kind = DiffLineKind.del := hdel
      simp [mkViewDiffLine, hk]
    · exact viewDiffLines_del_not_selected rmd path cs s e rend rest (k + 1) vl hvl hdel

/-- Claim C6: in `buildViewDiff`, the projected `Selected` flag of the
line at position `(j, i)` is true exactly when the source line is
selectable (`newLine > 0` and kind not delete), the selection is
non-empty, and `newLine` lies within the selection bounds; in
particular, a line of kind delete is never selected. -/
theorem c6_buildViewDiff_selected (ext : Externals) (f : DiffFile) (cs : List Comment)
    (s e : Int) (r : Bool) :
    (∀ j i : Nat,
      ((buildViewDiff ext f cs s e r).Hunks[j]?.bind fun vh =>
        vh.Lines[i]?.map ViewDiffLine.Selected) =
      (f.Hunks[j]?.bind fun h => h.Lines[i]?.map fun dl =>
        (decide (0 < dl.NewLine) && dl.Kind != DiffLineKind.del) &&
          decide (0 < s) && decide (0 < e) &&
          decide (s ≤ (dl.NewLine : Int)) && decide ((dl.NewLine : Int) ≤ e))) ∧
    (∀ vh ∈ (buildViewDiff ext f cs s e r).Hunks, ∀ vl ∈ vh.Lines,
      vl.Kind = DiffLineKind.del → vl.Selected = false) := by
  constructor
  · intro j i
    simp only [buildViewDiff, List.getElem?_map]
    cases hj : f.Hunks[j]? with
    | none => simp
    | some h =>
      simp only [Option.map_some', Option.some_bind']
      rw [viewDiffLines_getElem]
      cases hi : h.Lines[i]? with
      | none => simp
      | some dl =>
        simp only [Option.map_some']
        cases hsel : (decide (0 < dl.NewLine) && dl.Kind != DiffLineKind.del) with
        | true => simp [mkViewDiffLine, hsel]
        | false => simp [mkViewDiffLine, hsel]
  · intro vh hvh vl hvl hdel
    rcases List.mem_map.1 hvh with ⟨h, _, rfl⟩
    exact viewDiffLines_del_not_selected ext.renderMarkdown f.Path cs s e _ h.Lines 0 vl hvl hdel

/-- Trivial external renderers for the concrete witnesses. -/
def identExt : Externals :=
  { renderLines := fun _ ls => ls, renderMarkdown := fun s => s }

/-- A concrete diff file for the C6 witness: one hunk with a delete line
followed by an add line with new-side number 2. -/
def c6File : DiffFile :=
  { OldPath := "a.go", NewPath := "a.go", Path := "a.go",
    Hunks := [⟨1, 1, 1, 2, [⟨.del, 1, 0, "old"⟩, ⟨.add, 0, 2, "new"⟩]⟩] }

/-- Witness for C6: with selection [1,5] the position equation holds at
the add line, and the concrete projected delete line is not selected. -/
theorem c6_buildViewDiff_selected_witness :
    ((buildViewDiff identExt c6File [] 1 5 false).Hunks[0]?.bind fun vh =>
      vh.Lines[1]?.map ViewDiffLine.Selected) =
    (c6File.Hunks[0]?.bind fun h => h.Lines[1]?.map fun dl =>
      (decide (0 < dl.NewLine) && dl.Kind != DiffLineKind.del) &&
        decide (0 < (1 : Int)) && decide (0 < (5 : Int)) &&
        decide ((1 : Int) ≤ (dl.NewLine : Int)) && decide ((dl.NewLine : Int) ≤ (5 : Int))) ∧
    (⟨DiffLineKind.del, 1, 0, "old", "", false, false, []⟩ : ViewDiffLine).Selected = false := by
  constructor
  · exact (c6_buildViewDiff_selected identExt c6File [] 1 5 false).1 0 1
  · exact (c6_buildViewDiff_selected identExt c6File [] 1 5 false).2
      ⟨"@@ -1,1 +1,2 @@", [⟨DiffLineKind.del, 1, 0, "old", "", false, false, []⟩,
        ⟨DiffLineKind.add, 0, 2, "new", "", true, false, []⟩]⟩ (by decide)
      ⟨DiffLineKind.del, 1, 0, "old", "", false, false, []⟩ (by decide) rfl

/-! ### Handler lemmas: C8, C9, C10 -/

/-- `updateView` recomputes only the derived view fields; the session
fields are untouched. -/
theorem updateView_fields (ext : Externals) (m : ReviewModel) :
    (updateView ext m).SelectionStart = m.SelectionStart ∧
    (updateView ext m).SelectionEnd = m.SelectionEnd ∧
    (updateView ext m).Comments = m.Comments ∧
    (updateView ext m).SelectedPath = m.SelectedPath ∧
    (updateView ext m).Mode = m.Mode ∧
    (updateView ext m).Error = m.Error := by
  cases hm : m.Mode with
  | file =>
    simp only [updateView, hm]
    cases h : findFile m.Files m.SelectedPath with
    | none => simp [updateFileView, h, hm]
    | some f =>
      simp only [updateFileView, h]
      refine ⟨?_, ?_, ?_, ?_, ?_, ?_⟩ <;> (split_ifs <;> simp [hm])
  | diff =>
    simp only [updateView, hm]
    cases h : findDiffFile m.DiffFiles m.SelectedPath with
    | none => simp [updateDiffView, h, hm]
    | some f => simp [updateDiffView, h, hm]

/-- An accepted click (positive line number that exists in the selected
diff file when in diff mode) reduces `selectLine` to a selection update
followed by `updateView`. -/
theorem selectLine_accepted (ext : Externals) (m : ReviewModel) (line : Int) (shift : Bool)
    (hl : 0 < line)
    (hmode : m.Mode = ViewMode.diff → diffLineExists m.DiffFiles m.SelectedPath line = true) :
    selectLine ext m line shift =
      updateView ext
        (if shift && decide (0 < m.SelectionStart) then
          { m with SelectionStart := if line < m.SelectionStart then line else m.SelectionStart,
                   SelectionEnd := if line < m.SelectionStart then m.SelectionStart else line,
                   Error := "" }
        else { m with SelectionStart := line, SelectionEnd := line, Error := "" }) := by
  have hl' : ¬line ≤ 0 := not_le.2 hl
  have hguard : (m.Mode == ViewMode.diff && !diffLineExists m.DiffFiles m.SelectedPath line)
      = false := by
    by_cases hm : m.Mode = ViewMode.diff
    · simp [hm, hmode hm]
    · simp [hm]
  simp only [selectLine, hl', if_false, hguard, Bool.false_eq_true]
  split
  · split <;> rfl
  · rfl

/-- Claim C8: a plain click on an accepted line resets the selection to
that single line; a shift-click with a prior anchored selection selects
`{min(anchor, L), max(anchor, L)}`; a shift-click from the empty
selection acts as a plain click; and in diff mode a click on a number
that is not the new-side number of a non-deleted line of the selected
file leaves the model unchanged (`diffLineExists` being exactly that
condition). -/
theorem c8_selectLine (ext : Externals) (m : ReviewModel) (line : Int) (shift : Bool) :
    (0 < line →
      (m.Mode = ViewMode.diff → diffLineExists m.DiffFiles m.SelectedPath line = true) →
      ((shift = false →
          (selectLine ext m line shift).SelectionStart = line ∧
          (selectLine ext m line shift).SelectionEnd = line) ∧
       (shift = true → 0 < m.SelectionStart →
          (selectLine ext m line shift).SelectionStart = min m.SelectionStart line ∧
          (selectLine ext m line shift).SelectionEnd = max m.SelectionStart line) ∧
       (shift = true → m.SelectionStart = 0 → m.SelectionEnd = 0 →
          (selectLine ext m line shift).SelectionStart = line ∧
          (selectLine ext m line shift).SelectionEnd = line))) ∧
    (m.Mode = ViewMode.diff → diffLineExists m.DiffFiles m.SelectedPath line = false →
      selectLine ext m line shift = m) ∧
    (diffLineExists m.DiffFiles m.SelectedPath line = true ↔
      ∃ f, findDiffFile m.DiffFiles m.SelectedPath = some f ∧
        ∃ h ∈ f.Hunks, ∃ dl ∈ h.Lines,
          (dl.NewLine : Int) = line ∧ dl.Kind ≠ DiffLineKind.del) := by
  refine ⟨fun hl hmode => ?_, fun hm hne => ?_, ?_⟩
  · rw [selectLine_accepted ext m line shift hl hmode]
    refine ⟨fun hs => ?_, fun hs ha => ?_, fun hs ha _ => ?_⟩
    · subst hs
      rcases updateView_fields ext
        { m with SelectionStart := line, SelectionEnd := line, Error := "" } with ⟨h1, h2, -⟩
      simp only [Bool.false_and, if_false, Bool.false_eq_true] at *
      exact ⟨by rw [h1], by rw [h2]⟩
    · subst hs
      have hcond : (true && decide (0 < m.SelectionStart)) = true := by simp [ha]
      rw [if_pos hcond]
      rcases updateView_fields ext
        { m with SelectionStart := if line < m.SelectionStart then line else m.SelectionStart,
                 SelectionEnd := if line < m.SelectionStart then m.SelectionStart else line,
                 Error := "" } with ⟨h1, h2, -⟩
      rw [h1, h2]
      constructor
      · simp only []
        split <;> omega
      · simp only []
        split <;> omega
    · subst hs
      have hcond : (true && decide (0 < m.SelectionStart)) = false := by simp [ha]
      rw [if_neg (by simp [hcond])]
      rcases updateView_fields ext
        { m with SelectionStart := line, SelectionEnd := line, Error := "" } with ⟨h1, h2, -⟩
      exact ⟨by rw [h1], by rw [h2]⟩
  · by_cases hl0 : line ≤ 0
    · simp [selectLine, hl0]
    · simp [selectLine, hl0, hm, hne]
  · unfold diffLineExists
    cases hf : findDiffFile m.DiffFiles m.SelectedPath with
    | none => simp
    | some f =>
      simp [List.any_eq_true, beq_iff_eq, bne_iff_ne]

/-- A concrete diff file for the C8 witness: its only selectable line
has new-side number 2. -/
def c8File : DiffFile :=
  { OldPath := "a.go", NewPath := "a.go", Path := "a.go",
    Hunks := [⟨1, 1, 2, 1, [⟨.add, 0, 2, "x"⟩]⟩] }

/-- A concrete diff-mode model with prior selection `{5, 5}`. -/
def c8Model : ReviewModel :=
  { Files := [], DiffFiles := [c8File], SelectedPath := "a.go", SelectedLabel := "",
    Mode := .diff, RenderFile := false, RenderComments := true,
    SelectionStart := 5, SelectionEnd := 5, CommentDraft := "", Comments := [],
    Ranges := fun _ => [], MarkdownRenderByPath := fun _ => none,
    ViewFile := {}, ViewDiff := {}, Error := "" }

/-- Witness for C8: shift-clicking line 2 with anchor 5 yields the
auto-swapped selection `{2, 5}`. -/
theorem c8_selectLine_witness :
    (selectLine identExt c8Model 2 true).SelectionStart = 2 ∧
    (selectLine identExt c8Model 2 true).SelectionEnd = 5 := by
  have h := ((c8_selectLine identExt c8Model 2 true).1 (by decide)
    (fun _ => by decide)).2.1 rfl (by decide)
  exact ⟨h.1.trans (by decide), h.2.trans (by decide)⟩

/-- The accepting branch of `addComment`, shared by C9 and C10. -/
theorem c9_addComment_parts (ext : Externals) (m : ReviewModel) (text : String) :
    goTrimSpace text ≠ "" → m.SelectionStart ≠ 0 → m.SelectionEnd ≠ 0 →
      (addComment ext m text).Comments =
        m.Comments ++ [⟨m.SelectedPath, m.SelectionStart, m.SelectionEnd, goTrimSpace text⟩] ∧
      (addComment ext m text).SelectionStart = 0 ∧
      (addComment ext m text).SelectionEnd = 0 := by
  intro ht h1 h2
  have hsel : ¬(m.SelectionStart = 0 ∨ m.SelectionEnd = 0) := by
    rintro (h | h)
    · exact h1 h
    · exact h2 h
  simp only [addComment, ht, if_false, if_neg, hsel]
  rcases updateView_fields ext
    { m with
      Comments := m.Comments ++
        [⟨m.SelectedPath, m.SelectionStart, m.SelectionEnd, goTrimSpace text⟩],
      CommentDraft := "", Error := "", SelectionStart := 0, SelectionEnd := 0 }
    with ⟨hs, he, hc, -⟩
  refine ⟨?_, ?_, ?_⟩ <;> simp_all

/-- Claim C9: `addComment` with empty trimmed text, or with an empty
selection, only sets the validation message (comment list and selection
untouched); with non-empty trimmed text and a non-empty selection it
appends exactly one comment built from the selected path, the selection
bounds and the trimmed text, and resets the selection to `{0, 0}`. -/
theorem c9_addComment (ext : Externals) (m : ReviewModel) (text : String) :
    (goTrimSpace text = "" →
      addComment ext m text = { m with Error := "comment text is required" }) ∧
    (goTrimSpace text ≠ "" → (m.SelectionStart = 0 ∨ m.SelectionEnd = 0) →
      addComment ext m text = { m with Error := "select a line or range first" }) ∧
    (goTrimSpace text ≠ "" → m.SelectionStart ≠ 0 → m.SelectionEnd ≠ 0 →
      (addComment ext m text).Comments =
        m.Comments ++ [⟨m.SelectedPath, m.SelectionStart, m.SelectionEnd, goTrimSpace text⟩] ∧
      (addComment ext m text).SelectionStart = 0 ∧
      (addComment ext m text).SelectionEnd = 0) := by
  refine ⟨fun ht => ?_, fun ht hsel => ?_, fun ht h1 h2 => ?_⟩
  · simp [addComment, ht]
  · rcases hsel with h0 | h0 <;> simp [addComment, ht, h0]
  · exact c9_addComment_parts ext m text ht h1 h2

/-- A concrete file-mode model with the empty selection. -/
def c9ModelEmpty : ReviewModel :=
  { Files := [⟨"b.txt", "b.txt", ["alpha", "beta"]⟩], DiffFiles := [],
    SelectedPath := "b.txt", SelectedLabel := "", Mode := .file,
    RenderFile := false, RenderComments := true,
    SelectionStart := 0, SelectionEnd := 0, CommentDraft := "", Comments := [],
    Ranges := fun _ => [], MarkdownRenderByPath := fun _ => none,
    ViewFile := {}, ViewDiff := {}, Error := "" }

/-- The same model with selection `{2, 2}`. -/
def c9ModelSel : ReviewModel :=
  { c9ModelEmpty with SelectionStart := 2, SelectionEnd := 2 }

/-- Witness for C9: an empty selection yields the validation message and
no comment; with selection `{2, 2}` and text `" ok "` exactly one
trimmed comment is appended and the selection resets. -/
theorem c9_addComment_witness :
    addComment identExt c9ModelEmpty "hi" =
      { c9ModelEmpty with Error := "select a line or range first" } ∧
    (addComment identExt c9ModelSel " ok ").Comments = [⟨"b.txt", 2, 2, "ok"⟩] ∧
    (addComment identExt c9ModelSel " ok ").SelectionStart = 0 ∧
    (addComment identExt c9ModelSel " ok ").SelectionEnd = 0 := by
  have ha := (c9_addComment identExt c9ModelEmpty "hi").2.1 (by decide) (Or.inl rfl)
  have hb := (c9_addComment identExt c9ModelSel " ok ").2.2 (by decide) (by decide) (by decide)
  exact ⟨ha, hb.1.trans (by decide), hb.2.1, hb.2.2⟩

/-- Claim C10 (implicit): in file mode `selectLine` accepts every
positive line number with no check against the selected file's line
count — the hypotheses mention neither `m.Files` nor any line count —
so a plain click on any `0 < line` yields selection `{line, line}`, and
a subsequent `addComment` records a comment anchored at `line` even when
`line` exceeds the file's last line. -/
theorem c10_no_bounds_check (ext : Externals) (m : ReviewModel) (line : Int) (text : String) :
    m.Mode = ViewMode.file → 0 < line →
      ((selectLine ext m line false).SelectionStart = line ∧
       (selectLine ext m line false).SelectionEnd = line) ∧
      (goTrimSpace text ≠ "" →
        (addComment ext (selectLine ext m line false) text).Comments =
          m.Comments ++ [⟨m.SelectedPath, line, line, goTrimSpace text⟩]) := by
  intro hmode hl
  have hdm : m.Mode = ViewMode.diff → diffLineExists m.DiffFiles m.SelectedPath line = true := by
    intro h
    rw [hmode] at h
    cases h
  rw [selectLine_accepted ext m line false hl hdm]
  rw [if_neg (by simp)]
  rcases updateView_fields ext
    { m with SelectionStart := line, SelectionEnd := line, Error := "" }
    with ⟨h1, h2, h3, h4, -⟩
  have h1' : (updateView ext
      { m with SelectionStart := line, SelectionEnd := line, Error := "" }).SelectionStart =
      line := h1
  have h2' : (updateView ext
      { m with SelectionStart := line, SelectionEnd := line, Error := "" }).SelectionEnd =
      line := h2
  have h3' : (updateView ext
      { m with SelectionStart := line, SelectionEnd := line, Error := "" }).Comments =
      m.Comments := h3
  have h4' : (updateView ext
      { m with SelectionStart := line, SelectionEnd := line, Error := "" }).SelectedPath =
      m.SelectedPath := h4
  refine ⟨⟨h1', h2'⟩, fun ht => ?_⟩
  have hne1 : (updateView ext
      { m with SelectionStart := line, SelectionEnd := line, Error := "" }).SelectionStart ≠
      0 := by rw [h1']; omega
  have hne2 : (updateView ext
      { m with SelectionStart := line, SelectionEnd := line, Error := "" }).SelectionEnd ≠
      0 := by rw [h2']; omega
  have hp := c9_addComment_parts ext
    (updateView ext { m with SelectionStart := line, SelectionEnd := line, Error := "" })
    text ht hne1 hne2
  rw [hp.1, h1', h2', h3', h4']

/-- A concrete file-mode model whose selected file has exactly one
line. -/
def c10Model : ReviewModel :=
  { Files := [⟨"one.txt", "one.txt", ["only"]⟩], DiffFiles := [],
    SelectedPath := "one.txt", SelectedLabel := "", Mode := .file,
    RenderFile := false, RenderComments := true,
    SelectionStart := 0, SelectionEnd := 0, CommentDraft := "", Comments := [],
    Ranges := fun _ => [], MarkdownRenderByPath := fun _ => none,
    ViewFile := {}, ViewDiff := {}, Error := "" }

/-- Witness for C10: clicking line 100 of a one-line file is accepted
and the subsequent comment is recorded at lines 100-100. -/
theorem c10_no_bounds_check_witness :
    (selectLine identExt c10Model 100 false).SelectionStart = 100 ∧
    (selectLine identExt c10Model 100 false).SelectionEnd = 100 ∧
    (addComment identExt (selectLine identExt c10Model 100 false) "past the end").Comments =
      [⟨"one.txt", 100, 100, "past the end"⟩] := by
  have h := c10_no_bounds_check identExt c10Model 100 "past the end" rfl (by decide)
  exact ⟨h.1.1, h.1.2, (h.2 (by decide)).trans (by decide)⟩

/-! ### Parse failure: C3 -/

/-- Two prefixes matching the same string start with the same
character. -/
theorem pfxChars_head {p q : Char} {ps qs s : List Char}
    (hp : pfxChars (p :: ps) s = true) (hq : pfxChars (q :: qs) s = true) : p = q := by
  cases s with
  | nil => simp [pfxChars] at hp
  | cons c cs =>
    simp only [pfxChars, Bool.and_eq_true, beq_iff_eq] at hp hq
    exact hp.1.trans hq.1.symm

/-- A line that starts with the hunk-header marker matches none of the
other header markers. -/
theorem atat_not_other (raw : String) (h : hasPfx raw "@@ " = true) :
    hasPfx raw "diff --git " = false ∧ hasPfx raw "--- " = false ∧
    hasPfx raw "+++ " = false := by
  have e0 : "@@ ".toList = '@' :: '@' :: [' '] := rfl
  have e1 : "diff --git ".toList = 'd' :: "iff --git ".toList := rfl
  have e2 : "--- ".toList = '-' :: "-- ".toList := rfl
  have e3 : "+++ ".toList = '+' :: "++ ".toList := rfl
  unfold hasPfx at h ⊢
  rw [e0] at h
  refine ⟨?_, ?_, ?_⟩
  · rw [e1]
    by_contra hx
    rw [Bool.not_eq_false] at hx
    exact absurd (pfxChars_head hx h) (by decide)
  · rw [e2]
    by_contra hx
    rw [Bool.not_eq_false] at hx
    exact absurd (pfxChars_head hx h) (by decide)
  · rw [e3]
    by_contra hx
    rw [Bool.not_eq_false] at hx
    exact absurd (pfxChars_head hx h) (by decide)

/-- A single parser step fails exactly on a line that carries the
hunk-header marker but does not match the hunk-header pattern; every
other line is consumed without error, whatever the current state. -/
theorem processLine_error_iff (st : ParseState) (raw : String) :
    (∃ e, processLine st raw = .error e) ↔
      hasPfx raw "@@ " = true ∧ parseHunkHeader raw = none := by
  constructor
  · rintro ⟨e, he⟩
    unfold processLine at he
    by_cases h1 : hasPfx raw "diff --git " = true
    · rw [if_pos h1] at he; simp at he
    rw [if_neg h1] at he
    by_cases h2 : hasPfx raw "--- " = true
    · rw [if_pos h2] at he; simp at he
    rw [if_neg h2] at he
    by_cases h3 : hasPfx raw "+++ " = true
    · rw [if_pos h3] at he; simp at he
    rw [if_neg h3] at he
    by_cases h4 : hasPfx raw "@@ " = true
    · rw [if_pos h4] at he
      cases hh : parseHunkHeader raw with
      | none => exact ⟨h4, rfl⟩
      | some v =>
        rw [hh] at he
        obtain ⟨o, oc, n, nc⟩ := v
        simp at he
    · rw [if_neg h4] at he
      by_cases h5 : (!st.hunkOpen) = true
      · rw [if_pos h5] at he; simp at he
      rw [if_neg h5] at he
      by_cases h6 : hasPfx raw "\\ No newline at end of file" = true
      · rw [if_pos h6] at he; simp at he
      rw [if_neg h6] at he
      by_cases h7 : (raw == "") = true
      · rw [if_pos h7] at he; simp at he
      rw [if_neg h7] at he
      by_cases h8 : (strFront raw == ' ') = true
      · rw [if_pos h8] at he; simp at he
      rw [if_neg h8] at he
      by_cases h9 : (strFront raw == '+') = true
      · rw [if_pos h9] at he; simp at he
      rw [if_neg h9] at he
      by_cases h10 : (strFront raw == '-') = true
      · rw [if_pos h10] at he; simp at he
      rw [if_neg h10] at he
      simp at he
  · rintro ⟨h4, hh⟩
    obtain ⟨hn1, hn2, hn3⟩ := atat_not_other raw h4
    refine ⟨"invalid hunk header: " ++ raw, ?_⟩
    unfold processLine
    rw [if_neg (by simp [hn1]), if_neg (by simp [hn2]), if_neg (by simp [hn3]),
      if_pos h4, hh]

/-- The parser loop fails exactly when some line of the input is a
malformed hunk header. -/
theorem runLines_error_iff (ls : List String) : ∀ st : ParseState,
    (∃ e, runLines st ls = .error e) ↔
      ∃ l ∈ ls, hasPfx l "@@ " = true ∧ parseHunkHeader l = none := by
  induction ls with
  | nil => intro st; simp [runLines]
  | cons l ls ih =>
    intro st
    constructor
    · rintro ⟨e, he⟩
      unfold runLines at he
      cases hp : processLine st l with
      | error e2 =>
        have hb := (processLine_error_iff st l).1 ⟨e2, hp⟩
        exact ⟨l, List.mem_cons_self l ls, hb⟩
      | ok st2 =>
        rw [hp] at he
        rcases (ih st2).1 ⟨e, he⟩ with ⟨l2, hl2, hb⟩
        exact ⟨l2, List.mem_cons_of_mem l hl2, hb⟩
    · rintro ⟨l2, hl2, hb⟩
      rcases List.mem_cons.1 hl2 with rfl | hl2
      · rcases (processLine_error_iff st l2).2 hb with ⟨e, he⟩
        exact ⟨e, by simp [runLines, he]⟩
      · cases hp : processLine st l with
        | error e2 => exact ⟨e2, by simp [runLines, hp]⟩
        | ok st2 =>
          rcases (ih st2).2 ⟨l2, hl2, hb⟩ with ⟨e, he⟩
          exact ⟨e, by simp [runLines, hp, he]⟩

/-- `parseUnifiedDiff` returns an error (and hence no diff files at all,
not even already-parsed partial ones — the error constructor carries
only the message). -/
def parseFails (input : String) : Bool :=
  match parseUnifiedDiff input with
  | .error _ => true
  | .ok _ => false

/-- Claim C3: the parse fails exactly when the input contains a line
starting with the hunk-header marker that does not match the
hunk-header pattern; no other input condition makes the parse fail, and
on failure no `DiffFile` sequence is produced (`parseFails` returns no
files by construction). -/
theorem c3_parse_error_iff (input : String) :
    parseFails input = true ↔
      ∃ l ∈ splitLines input, hasPfx l "@@ " = true ∧ parseHunkHeader l = none := by
  unfold parseFails parseUnifiedDiff
  cases hr : runLines initState (splitLines input) with
  | error e =>
    simp only []
    constructor
    · intro _
      exact (runLines_error_iff (splitLines input) initState).1 ⟨e, hr⟩
    · intro _
      trivial
  | ok st =>
    simp only []
    constructor
    · intro hfalse
      cases hfalse
    · intro hbad
      rcases (runLines_error_iff (splitLines input) initState).2 hbad with ⟨e, he⟩
      rw [hr] at he
      cases he

/-- Witness for C3: a malformed hunk header makes the whole parse fail,
while the same body without the marker parses fine. -/
theorem c3_parse_error_iff_witness :
    parseFails "@@ nope\n context" = true ∧ parseFails " context" = false := by
  constructor
  · exact (c3_parse_error_iff "@@ nope\n context").2
      ⟨"@@ nope", by decide, by decide, by decide⟩
  · by_contra hx
    rw [Bool.not_eq_false] at hx
    rcases (c3_parse_error_iff " context").1 hx with ⟨l, hl, hb⟩
    revert hb
    have : l = " context" := by
      have := hl
      simp [splitLines, splitAux, normEOL] at this
      exact this
    rw [this]
    rintro ⟨h1, -⟩
    exact absurd h1 (by decide)

/-! ### Line-number bookkeeping: C1 -/

/-- The numbering invariant of a hunk's line list relative to its start
numbers: every old-side line carries `oldStart` plus the number of
old-side lines before it, and symmetrically on the new side. -/
def LinesOk (os ns : Nat) (ls : List DiffLine) : Prop :=
  ∀ i : Nat, ∀ hi : i < ls.length,
    (isOldSide ls[i] = true → (ls[i]).OldLine = os + countOld (ls.take i)) ∧
    (isNewSide ls[i] = true → (ls[i]).NewLine = ns + countNew (ls.take i))

/-- Every hunk of a file satisfies the numbering invariant. -/
def FileOk (f : DiffFile) : Prop :=
  ∀ h ∈ f.Hunks, LinesOk h.OldStart h.NewStart h.Lines

/-- The parser-state invariant: finished and current files satisfy the
per-hunk numbering invariant, and while a hunk is open the cursors equal
the open hunk's start numbers plus the respective side counts of its
lines so far. -/
def StOk (st : ParseState) : Prop :=
  (∀ f ∈ st.files, FileOk f) ∧
  (∀ f, st.curFile = some f → FileOk f) ∧
  (st.hunkOpen = true → ∃ f hs h, st.curFile = some f ∧ f.Hunks = hs ++ [h] ∧
    st.oldLine = h.OldStart + countOld h.Lines ∧ st.newLine = h.NewStart + countNew h.Lines)

theorem LinesOk_nil (os ns : Nat) : LinesOk os ns [] := by
  intro i hi
  simp at hi

theorem LinesOk_append (os ns : Nat) (ls : List DiffLine) (l : DiffLine)
    (h1 : LinesOk os ns ls)
    (h2 : isOldSide l = true → l.OldLine = os + countOld ls)
    (h3 : isNewSide l = true → l.NewLine = ns + countNew ls) :
    LinesOk os ns (ls ++ [l]) := by
  intro i hi
  by_cases hlt : i < ls.length
  · have hg : (ls ++ [l])[i] = ls[i] := List.getElem_append_left hlt
    have htk : (ls ++ [l]).take i = ls.take i :=
      List.take_append_of_le_length (le_of_lt hlt)
    rw [hg, htk]
    exact h1 i hlt
  · have hlen : i = ls.length := by
      have hb := hi
      simp only [List.length_append, List.length_singleton] at hb
      omega
    subst hlen
    have hg : (ls ++ [l])[ls.length] = l := List.getElem_concat_length ls l ls.length rfl hi
    have htk : (ls ++ [l]).take ls.length = ls := by
      rw [List.take_append_of_le_length (le_refl _), List.take_length]
    rw [hg, htk]
    exact ⟨h2, h3⟩

theorem addLine_fields (st : ParseState) (l : DiffLine) :
    (addLine st l).files = st.files ∧ (addLine st l).hunkOpen = st.hunkOpen ∧
    (addLine st l).oldLine = st.oldLine ∧ (addLine st l).newLine = st.newLine := by
  cases hc : st.curFile <;> simp [addLine, hc]

theorem updateLast_append (hs : List DiffHunk) (h : DiffHunk) (l : DiffLine) :
    updateLast (hs ++ [h]) l = hs ++ [{ h with Lines := h.Lines ++ [l] }] := by
  induction hs with
  | nil => rfl
  | cons a hs ih =>
    cases hs with
    | nil => rfl
    | cons b hs2 =>
      show a :: updateLast ((b :: hs2) ++ [h]) l =
        a :: ((b :: hs2) ++ [{ h with Lines := h.Lines ++ [l] }])
      rw [ih]

/-- One content line appended while a hunk is open preserves the parser
invariant (the core of C1: the appended line carries the cursors, and
the cursors advance by the side counts of the appended line). -/
theorem StOk_content (st : ParseState) (l : DiffLine) (o2 n2 : Nat)
    (hok : StOk st) (hopen : st.hunkOpen = true)
    (h2 : isOldSide l = true → l.OldLine = st.oldLine)
    (h3 : isNewSide l = true → l.NewLine = st.newLine)
    (ho2 : o2 = st.oldLine + countOld [l])
    (hn2 : n2 = st.newLine + countNew [l]) :
    StOk { addLine st l with oldLine := o2, newLine := n2 } := by
  obtain ⟨hfiles, hcur, hop⟩ := hok
  obtain ⟨f, hs, h, hc, hhunks, hcur1, hcur2⟩ := hop hopen
  have haddc : (addLine st l).curFile =
      some { f with Hunks := hs ++ [{ h with Lines := h.Lines ++ [l] }] } := by
    simp [addLine, hc, hhunks, updateLast_append]
  have hmem_h : h ∈ f.Hunks := by
    rw [hhunks]
    exact List.mem_append_right hs (List.mem_singleton.mpr rfl)
  have hlines : LinesOk h.OldStart h.NewStart (h.Lines ++ [l]) := by
    refine LinesOk_append _ _ _ _ (hcur f hc h hmem_h) ?_ ?_
    · intro hx; rw [h2 hx, hcur1]
    · intro hx; rw [h3 hx, hcur2]
  refine ⟨?_, ?_, ?_⟩
  · intro g hg
    have hg' : g ∈ st.files := by
      rw [← (addLine_fields st l).1]
      exact hg
    exact hfiles g hg'
  · intro g hg
    have hg' : (addLine st l).curFile = some g := hg
    rw [haddc] at hg'
    injection hg' with hg'
    intro hk hkmem
    rw [← hg'] at hkmem
    rcases List.mem_append.1 hkmem with hkm | hkm
    · refine hcur f hc hk ?_
      rw [hhunks]
      exact List.mem_append_left [h] hkm
    · rw [List.mem_singleton.1 hkm]
      exact hlines
  · intro _
    refine ⟨{ f with Hunks := hs ++ [{ h with Lines := h.Lines ++ [l] }] }, hs,
      { h with Lines := h.Lines ++ [l] }, haddc, rfl, ?_, ?_⟩
    · rw [ho2, hcur1]
      show h.OldStart + countOld h.Lines + countOld [l] =
        h.OldStart + countOld (h.Lines ++ [l])
      rw [countOld, countOld, countOld, List.countP_append]
      omega
    · rw [hn2, hcur2]
      show h.NewStart + countNew h.Lines + countNew [l] =
        h.NewStart + countNew (h.Lines ++ [l])
      rw [countNew, countNew, countNew, List.countP_append]
      omega

/-- A successful parser step preserves the invariant. -/
theorem processLine_inv (st : ParseState) (raw : String) (hok : StOk st) :
    ∀ st', processLine st raw = .ok st' → StOk st' := by
  intro st' hp
  unfold processLine at hp
  by_cases h1 : hasPfx raw "diff --git " = true
  · rw [if_pos h1] at hp
    injection hp with hp
    subst hp
    obtain ⟨hfiles, hcur, hop⟩ := hok
    cases hc : st.curFile with
    | none =>
      have hfl : flushFile st = st := by simp [flushFile, hc]
      rw [hfl]
      refine ⟨hfiles, ?_, ?_⟩
      · intro g hg
        injection hg with hg
        rw [← hg]
        intro hk hkm
        simp at hkm
      · intro hopn
        obtain ⟨f, -, -, hcf, -⟩ := hop hopn
        rw [hc] at hcf
        cases hcf
    | some f0 =>
      have hfl : flushFile st =
          { st with files := st.files ++ [f0], curFile := none, hunkOpen := false } := by
        simp [flushFile, hc]
      rw [hfl]
      refine ⟨?_, ?_, ?_⟩
      · intro g hg
        rcases List.mem_append.1 hg with hg | hg
        · exact hfiles g hg
        · rw [List.mem_singleton.1 hg]
          exact hcur f0 hc
      · intro g hg
        injection hg with hg
        rw [← hg]
        intro hk hkm
        simp at hkm
      · intro hopn
        cases hopn
  rw [if_neg h1] at hp
  by_cases h2 : hasPfx raw "--- " = true
  · rw [if_pos h2] at hp
    injection hp with hp
    subst hp
    obtain ⟨hfiles, hcur, hop⟩ := hok
    refine ⟨hfiles, ?_, ?_⟩
    · intro g hg
      injection hg with hg
      rw [← hg]
      intro hk hkm
      cases hc : st.curFile with
      | none => rw [hc] at hkm; simp at hkm
      | some f0 =>
        rw [hc] at hkm
        exact hcur f0 hc hk hkm
    · intro hopn
      obtain ⟨f, hs, h, hcf, hhunks, u1, u2⟩ := hop hopn
      refine ⟨{ f with OldPath := normalizeDiffPath (goTrimSpace (strDrop raw 4)) }, hs, h,
        ?_, ?_, u1, u2⟩
      · rw [hcf]
        rfl
      · exact hhunks
  rw [if_neg h2] at hp
  by_cases h3 : hasPfx raw "+++ " = true
  · rw [if_pos h3] at hp
    injection hp with hp
    subst hp
    obtain ⟨hfiles, hcur, hop⟩ := hok
    refine ⟨hfiles, ?_, ?_⟩
    · intro g hg
      injection hg with hg
      rw [← hg]
      intro hk hkm
      cases hc : st.curFile with
      | none => rw [hc] at hkm; simp at hkm
      | some f0 =>
        rw [hc] at hkm
        exact hcur f0 hc hk hkm
    · intro hopn
      obtain ⟨f, hs, h, hcf, hhunks, u1, u2⟩ := hop hopn
      refine ⟨_, hs, h, rfl, ?_, u1, u2⟩
      rw [hcf]
      exact hhunks
  rw [if_neg h3] at hp
  by_cases h4 : hasPfx raw "@@ " = true
  · rw [if_pos h4] at hp
    cases hh : parseHunkHeader raw with
    | none =>
      rw [hh] at hp
      cases hp
    | some v =>
      obtain ⟨o, oc, n, nc⟩ := v
      rw [hh] at hp
      injection hp with hp
      subst hp
      obtain ⟨hfiles, hcur, hop⟩ := hok
      refine ⟨hfiles, ?_, ?_⟩
      · intro g hg
        injection hg with hg
        rw [← hg]
        intro hk hkm
        rcases List.mem_append.1 hkm with hkm | hkm
        · cases hc : st.curFile with
          | none => rw [hc] at hkm; simp at hkm
          | some f0 =>
            rw [hc] at hkm
            exact hcur f0 hc hk hkm
        · rw [List.mem_singleton.1 hkm]
          exact LinesOk_nil o n
      · intro _
        refine ⟨_, (st.curFile.getD {}).Hunks, ⟨o, oc, n, nc, []⟩, rfl, rfl, ?_, ?_⟩
        · simp [countOld]
        · simp [countNew]
  rw [if_neg h4] at hp
  by_cases h5 : (!st.hunkOpen) = true
  · rw [if_pos h5] at hp
    injection hp with hp
    subst hp
    exact hok
  rw [if_neg h5] at hp
  have hopen : st.hunkOpen = true := by
    revert h5
    cases st.hunkOpen <;> simp
  by_cases h6 : hasPfx raw "\\ No newline at end of file" = true
  · rw [if_pos h6] at hp
    injection hp with hp
    subst hp
    exact hok
  rw [if_neg h6] at hp
  by_cases h7 : (raw == "") = true
  · rw [if_pos h7] at hp
    injection hp with hp
    subst hp
    exact StOk_content st ⟨.context, st.oldLine, st.newLine, ""⟩ _ _ hok hopen
      (fun _ => rfl) (fun _ => rfl) rfl rfl
  rw [if_neg h7] at hp
  by_cases h8 : (strFront raw == ' ') = true
  · rw [if_pos h8] at hp
    injection hp with hp
    subst hp
    exact StOk_content st ⟨.context, st.oldLine, st.newLine, strDrop raw 1⟩ _ _ hok hopen
      (fun _ => rfl) (fun _ => rfl) rfl rfl
  rw [if_neg h8] at hp
  by_cases h9 : (strFront raw == '+') = true
  · rw [if_pos h9] at hp
    injection hp with hp
    subst hp
    exact StOk_content st ⟨.add, 0, st.newLine, strDrop raw 1⟩ _ _ hok hopen
      (fun hx => by cases hx) (fun _ => rfl) (addLine_fields st _).2.2.1 rfl
  rw [if_neg h9] at hp
  by_cases h10 : (strFront raw == '-') = true
  · rw [if_pos h10] at hp
    injection hp with hp
    subst hp
    exact StOk_content st ⟨.del, st.oldLine, 0, strDrop raw 1⟩ _ _ hok hopen
      (fun _ => rfl) (fun hx => by cases hx) rfl (addLine_fields st _).2.2.2
  rw [if_neg h10] at hp
  injection hp with hp
  subst hp
  exact StOk_content st ⟨.context, st.oldLine, st.newLine, raw⟩ _ _ hok hopen
    (fun _ => rfl) (fun _ => rfl) rfl rfl

theorem StOk_init : StOk initState := by
  refine ⟨?_, ?_, ?_⟩
  · intro f hf
    simp [initState] at hf
  · intro f hf
    cases hf
  · intro h
    cases h

theorem runLines_inv (ls : List String) : ∀ st st', StOk st → runLines st ls = .ok st' →
    StOk st' := by
  induction ls with
  | nil =>
    intro st st' hok hr
    unfold runLines at hr
    injection hr with h
    rw [← h]
    exact hok
  | cons l ls ih =>
    intro st st' hok hr
    unfold runLines at hr
    cases hp : processLine st l with
    | error e =>
      rw [hp] at hr
      cases hr
    | ok st2 =>
      rw [hp] at hr
      exact ih st2 st' (processLine_inv st l hok st2 hp) hr

/-- Claim C1: for every hunk produced by a successful parse, the line at
index `i` carries old-side number `oldStart` plus the number of old-side
(context or delete) lines before it whenever it is itself old-side, and
new-side number `newStart` plus the number of new-side (context or add)
lines before it whenever it is new-side — purely by cursor arithmetic,
with no reference to the stored header counts. -/
theorem c1_parse_line_numbering (input : String) (files : List DiffFile)
    (hp : parseUnifiedDiff input = .ok files) :
    ∀ f ∈ files, ∀ h ∈ f.Hunks, ∀ i : Nat, ∀ hi : i < h.Lines.length,
      ((h.Lines[i]).Kind = DiffLineKind.context ∨ (h.Lines[i]).Kind = DiffLineKind.del →
        (h.Lines[i]).OldLine = h.OldStart + countOld (h.Lines.take i)) ∧
      ((h.Lines[i]).Kind = DiffLineKind.context ∨ (h.Lines[i]).Kind = DiffLineKind.add →
        (h.Lines[i]).NewLine = h.NewStart + countNew (h.Lines.take i)) := by
  unfold parseUnifiedDiff at hp
  cases hr : runLines initState (splitLines input) with
  | error e =>
    rw [hr] at hp
    cases hp
  | ok st =>
    rw [hr] at hp
    injection hp with hp
    have hok := runLines_inv (splitLines input) initState st StOk_init hr
    have hall : ∀ f ∈ (flushFile st).files, FileOk f := by
      cases hc : st.curFile with
      | none =>
        have hfl : flushFile st = st := by simp [flushFile, hc]
        rw [hfl]
        exact hok.1
      | some f0 =>
        have hfl : (flushFile st).files = st.files ++ [f0] := by simp [flushFile, hc]
        rw [hfl]
        intro f hf
        rcases List.mem_append.1 hf with hf | hf
        · exact hok.1 f hf
        · rw [List.mem_singleton.1 hf]
          exact hok.2.1 f0 hc
    rw [hp] at hall
    intro f hf h hh i hi
    have hl := hall f hf h hh i hi
    constructor
    · intro hk
      refine hl.1 ?_
      rcases hk with hk | hk <;> simp [isOldSide, hk]
    · intro hk
      refine hl.2 ?_
      rcases hk with hk | hk <;> simp [isNewSide, hk]

/-- Input for the C1 witness: the full diff of the repository's own
parser test, including the trailing newline (so the final split yields a
trailing empty line, parsed as an empty context line). -/
def c1Input : String :=
  "diff --git a/hello.txt b/hello.txt\n--- a/hello.txt\n+++ b/hello.txt\n" ++
  "@@ -1,3 +1,4 @@\n line1\n-line2\n+line2-new\n line3\n+line4\n"

/-- The hunk `parseUnifiedDiff` produces for `c1Input`. -/
def c1Hunk : DiffHunk :=
  ⟨1, 3, 1, 4,
    [⟨.context, 1, 1, "line1"⟩, ⟨.del, 2, 0, "line2"⟩, ⟨.add, 0, 2, "line2-new"⟩,
     ⟨.context, 3, 3, "line3"⟩, ⟨.add, 0, 4, "line4"⟩, ⟨.context, 4, 5, ""⟩]⟩

/-- The diff file `parseUnifiedDiff` produces for `c1Input`. -/
def c1File : DiffFile :=
  { OldPath := "hello.txt", NewPath := "hello.txt", Path := "hello.txt", Hunks := [c1Hunk] }

/-- Witness for C1: in the concrete parsed hunk, the delete line at
index 1 carries old-side number `oldStart + 1` (one old-side line before
it). -/
theorem c1_parse_line_numbering_witness :
    (⟨DiffLineKind.del, 2, 0, "line2"⟩ : DiffLine).OldLine =
      c1Hunk.OldStart + countOld (c1Hunk.Lines.take 1) := by
  have hparse : parseUnifiedDiff c1Input = .ok [c1File] := by rfl
  have h := c1_parse_line_numbering c1Input [c1File] hparse c1File
    (List.mem_singleton.mpr rfl) c1Hunk (List.mem_singleton.mpr rfl) 1 (by decide)
  exact h.1 (Or.inr rfl)

end Meatcheck
